import Mathlib

/-!
Verification of the PhotoEditPython pixel-tool core

Shallow embedding of the image-processing tool:
* `rgb.py` — the `RGB` pixel class (four independent integer channels);
* `plugins2.py` — the transform library (`dered`, `mono`, `flip`, `transpose`,
  `rotate`, `vignette`, `blur`, `pixellate`, `scramble`, `brighten`);
* `pictool1.py` — `verify_image`, `lookup_command`, `extract_options`.

Python integers are unbounded, so channels are embedded as `Int`.  Image
buffers are `List (List RGB)`; the Python code mutates buffers in place,
which the embedding renders as functions returning the new buffer contents.

Floating-point arithmetic: where the outcome genuinely depends on IEEE
binary64 rounding (`mono`, `vignette`) the embedding uses an exact model of
binary64 values as rationals, with `fl` rounding an exact rational to the
nearest representable value (round half to even; exponent range is not
bounded, which is exact for every magnitude arising in these computations).
`math.sqrt` and float division are correctly rounded per IEEE 754, and
`x ** 2` is modelled as the correctly rounded square.  For `blur`,
`pixellate` and `brighten` the single float division or product feeding
Python's `round` is modelled as exact rational arithmetic.
-/

namespace PicTool

/-- Source `rgb.py`: the `RGB` class.  Four independent integer channels; Python
ints are unbounded, so no clamping or range restriction is imposed by the
type, mirroring the source (`int(red)` etc. on already-integer inputs is
the identity). -/
structure RGB where
  red : Int
  green : Int
  blue : Int
  alpha : Int
  deriving DecidableEq, Repr

instance : Inhabited RGB := ⟨⟨0, 0, 0, 0⟩⟩

/-- An image buffer: a list of rows of pixels (`list[list[RGB]]`). -/
abbrev Buffer := List (List RGB)

/-- Indexing `buffer[r][c]` with an out-of-range default (all indexing in the
source happens within bounds; the default is never observed under the
dimension hypotheses used below). -/
def entry (b : Buffer) (r c : Nat) : RGB := (b.getD r []).getD c default

/-- The buffer has `h` rows, each of length `w` (rectangularity). -/
def Dims (b : Buffer) (h w : Nat) : Prop :=
  b.length = h ∧ ∀ row ∈ b, row.length = w

instance (b : Buffer) (h w : Nat) : Decidable (Dims b h w) := by
  unfold Dims
  infer_instance

/-! ## Geometric transforms (`plugins2.py`: `flip`, `transpose`, `rotate`)

The Python functions mutate the buffer in place (`image.reverse()`,
`row.reverse()`, `image.clear(); image.extend(transposed)`); the embedding
returns the new contents of the same buffer. -/

/-- Source `plugins2.flip`: vertical (`image.reverse()`) reverses the row order,
otherwise every row is reversed in place. -/
def flip (image : Buffer) (vertical : Bool := false) : Buffer :=
  if vertical then image.reverse else image.map List.reverse

/-- Source `plugins2.transpose`: no-op when the buffer or its first row is empty,
otherwise `[[image[r][c] for r in range(rows)] for c in range(cols)]`. -/
def transpose (image : Buffer) : Buffer :=
  if image.isEmpty ∨ (image.headD []).isEmpty then image
  else
    (List.range (image.headD []).length).map fun c =>
      (List.range image.length).map fun r => entry image r c

/-- Source `plugins2.rotate`: right is vertical flip then transpose, left
(default) is transpose then vertical flip. -/
def rotate (image : Buffer) (right : Bool := false) : Buffer :=
  if right then transpose (flip image true) else flip (transpose image) true

/-! ## Numeric helpers: Python `round` and `int` on exact values -/

/-- Python `round(x)` to an integer: round half to even.  Applied here to
the exact rational value of the expression fed to `round`. -/
def pyRound (q : ℚ) : Int :=
  if q - (⌊q⌋ : ℚ) < 1/2 then ⌊q⌋
  else if q - (⌊q⌋ : ℚ) > 1/2 then ⌊q⌋ + 1
  else if ⌊q⌋ % 2 = 0 then ⌊q⌋ else ⌊q⌋ + 1

/-- Python `int(x)`: truncation toward zero. -/
def pyInt (q : ℚ) : Int := if 0 ≤ q then ⌊q⌋ else ⌈q⌉

/-- The integers of Python `range(lo, hi + 1)` (empty when `hi < lo`). -/
def intRange (lo hi : Int) : List Int :=
  (List.range (hi + 1 - lo).toNat).map fun k : Nat => lo + (k : Int)

/-! ## `plugins2.blur` -/

/-- The per-pixel computation of `blur`: clamp the window to the edges,
collect the window pixels of the snapshot, and average each channel,
rounding with Python `round`.  `count` is the number of window pixels. -/
def blurPixel (original : Buffer) (height width : Nat) (radius : Int) (r c : Nat) : RGB :=
  let rowMin := max 0 ((r : Int) - radius)
  let rowMax := min ((height : Int) - 1) ((r : Int) + radius)
  let colMin := max 0 ((c : Int) - radius)
  let colMax := min ((width : Int) - 1) ((c : Int) + radius)
  let window := (intRange rowMin rowMax).flatMap fun i =>
    (intRange colMin colMax).map fun j => entry original i.toNat j.toNat
  RGB.mk (pyRound ((((window.map RGB.red).sum : Int) : ℚ) / (window.length : ℚ)))
         (pyRound ((((window.map RGB.green).sum : Int) : ℚ) / (window.length : ℚ)))
         (pyRound ((((window.map RGB.blue).sum : Int) : ℚ) / (window.length : ℚ)))
         (pyRound ((((window.map RGB.alpha).sum : Int) : ℚ) / (window.length : ℚ)))

/-- Source `plugins2.blur`: box blur over a snapshot copy of the original pixels.
The float division `total / count` feeding Python `round` is modelled as
exact rational division. -/
def blur (image : Buffer) (radius : Int := 5) : Buffer :=
  let height := image.length
  let width := (image.headD []).length
  let original := image.map fun row => row.map fun p => RGB.mk p.red p.green p.blue p.alpha
  (List.range height).map fun r => (List.range width).map fun c =>
    blurPixel original height width radius r c

/-- Specification-side description of the clamped square window of side
`2·radius + 1` centred at `(r, c)`. -/
def blurWindow (h w : Nat) (radius : Int) (r c : Nat) : Finset (Int × Int) :=
  Finset.Icc (max 0 ((r : Int) - radius)) (min ((h : Int) - 1) ((r : Int) + radius)) ×ˢ
    Finset.Icc (max 0 ((c : Int) - radius)) (min ((w : Int) - 1) ((c : Int) + radius))

/-- Specification-side channel average over a window of buffer `b`. -/
def windowAvg (b : Buffer) (W : Finset (Int × Int)) (ch : RGB → Int) : ℚ :=
  ((∑ p in W, ch (entry b p.1.toNat p.2.toNat) : Int) : ℚ) / (W.card : ℚ)

/-! ## Exact model of IEEE binary64 arithmetic

A binary64 value is modelled as its exact rational value.  `fl` rounds an
arbitrary rational to 53 significant bits, round half to even, with
unbounded exponent range (exact for every magnitude these computations
reach: no overflow or subnormals).  Float `+`, `-`, `*`, `/` and
`math.sqrt` are correctly rounded per IEEE 754, so each is modelled as
`fl` (resp. `sqrtD`) of the exact result.  `log2Fuel`/`isqrtFuel` are
fuel-based so that they evaluate by kernel reduction. -/

/-- Floor of `log₂ n` by repeated halving (`fuel ≥ log₂ n` suffices). -/
def log2Fuel : Nat → Nat → Nat
  | 0, _ => 0
  | fuel + 1, n => if 2 ≤ n then log2Fuel fuel (n / 2) + 1 else 0

def natLog2 (n : Nat) : Nat := log2Fuel n n

/-- The power `2 ^ e` as an exact rational, for any integer exponent. -/
def pow2 (e : Int) : ℚ := (2 : ℚ) ^ e

/-- Floor of `log₂ q` for a positive rational (first approximation from the
numerator and denominator bit lengths, then corrected by comparison). -/
def qlog2 (q : ℚ) : Int :=
  let e0 : Int := (natLog2 q.num.natAbs : Int) - (natLog2 q.den : Int)
  if pow2 (e0 + 1) ≤ q then e0 + 1
  else if q < pow2 e0 then e0 - 1
  else e0

/-- Round a rational to the nearest IEEE binary64 value (round half to
even, 53 significant bits, unbounded exponent range). -/
def fl (q : ℚ) : ℚ :=
  if q = 0 then 0
  else
    let a := |q|
    let e : Int := qlog2 a - 52
    let m : Int := pyRound (a / pow2 e)
    (if q < 0 then -1 else 1) * (m : ℚ) * pow2 e

/-- Newton iteration for the integer square root (the guard `y < x` stops
as soon as the iteration ceases to decrease, which yields `⌊√n⌋`). -/
def isqrtFuel : Nat → Nat → Nat → Nat
  | 0, _, x => x
  | fuel + 1, n, x =>
    let y := (x + n / x) / 2
    if y < x then isqrtFuel fuel n y else x

def isqrt (n : Nat) : Nat := if n ≤ 1 then n else isqrtFuel n n n

/-- Correctly rounded binary64 square root of a binary64 value
(`math.sqrt`): scale into `[2^104, 2^106)`, take the integer square root,
and round to 53 bits with an exact tie test. -/
def sqrtD (x : ℚ) : ℚ :=
  if x ≤ 0 then 0
  else
    let s : Int := (qlog2 x - 104).fdiv 2
    let A : ℚ := x * pow2 (-(2 * s))
    let m0 : Nat := isqrt ⌊A⌋.toNat
    let m : Nat :=
      if ((2 * m0 + 1 : Nat) ^ 2 : ℚ) < 4 * A then m0 + 1
      else if 4 * A < ((2 * m0 + 1 : Nat) ^ 2 : ℚ) then m0
      else if m0 % 2 = 0 then m0 else m0 + 1
    (m : ℚ) * pow2 s

/-! ## `plugins2.mono` -/

/-- The brightness `0.3 * pixel.red + 0.6 * pixel.green + 0.1 * pixel.blue`
as Python evaluates it in binary64: each decimal literal is the nearest
double, each int-to-float conversion, product and addition rounds once,
additions associating left to right. -/
def brightnessD (red green blue : Int) : ℚ :=
  fl (fl (fl (fl (3/10) * fl (red : ℚ)) + fl (fl (6/10) * fl (green : ℚ)))
      + fl (fl (1/10) * fl (blue : ℚ)))

/-- One pixel of `plugins2.mono`: grayscale (`sepia=False`) sets all three
channels to `int(brightness)`; sepia scales green and blue by the doubles
nearest `0.6` and `0.4` before truncating.  Alpha is untouched. -/
def monoPixel (p : RGB) (sepia : Bool) : RGB :=
  let brightness := brightnessD p.red p.green p.blue
  if sepia then
    RGB.mk (pyInt brightness) (pyInt (fl (fl (6/10) * brightness)))
      (pyInt (fl (fl (4/10) * brightness))) p.alpha
  else
    RGB.mk (pyInt brightness) (pyInt brightness) (pyInt brightness) p.alpha

/-- Source `plugins2.mono`: per-pixel in-place update. -/
def mono (image : Buffer) (sepia : Bool := false) : Buffer :=
  image.map fun row => row.map fun p => monoPixel p sepia

/-- The gray value a `mono(sepia=False)` pass writes into a pixel. -/
def grayOf (p : RGB) : Int := pyInt (brightnessD p.red p.green p.blue)

/-! ## `plugins2.vignette` -/

/-- The binary64 vignette factor `1 - (d / H) ** 2` at `(r, c)` for a
buffer of height `h` and width `w`: `d` and `H` are `math.sqrt` of the
exact integer squared distances (converted to binary64 on entry to
`sqrt`), the division rounds once, `** 2` is the correctly rounded square,
and the subtraction from 1 rounds once. -/
def vignetteFactor (h w r c : Nat) : ℚ :=
  let H := sqrtD (fl (((h / 2) ^ 2 + (w / 2) ^ 2 : Nat) : ℚ))
  let dd := sqrtD (fl (((((r : Int) - ((h / 2 : Nat) : Int)) ^ 2 +
    ((c : Int) - ((w / 2 : Nat) : Int)) ^ 2 : Int) : ℚ)))
  fl (1 - fl (fl (dd / H) * fl (dd / H)))

/-- One pixel of `vignette`: red, green and blue are multiplied by the
factor (one binary64 rounding) and passed to Python `round`; alpha is
untouched. -/
def vignettePixel (p : RGB) (factor : ℚ) : RGB :=
  RGB.mk (pyRound (fl (fl (p.red : ℚ) * factor)))
         (pyRound (fl (fl (p.green : ℚ) * factor)))
         (pyRound (fl (fl (p.blue : ℚ) * factor))) p.alpha

/-- Source `plugins2.vignette`.  `none` models the `ZeroDivisionError` raised by
the first `d / H` when `H == 0.0`; `H`, the float square root of
`center_row² + center_col²`, is zero exactly when that integer is zero
(`fl` and `sqrtD` vanish only at zero, see `fl_pos` and `sqrtD_pos`). -/
def vignette (image : Buffer) : Option Buffer :=
  let height := image.length
  let width := (image.headD []).length
  let H := sqrtD (fl (((height / 2) ^ 2 + (width / 2) ^ 2 : Nat) : ℚ))
  if H = 0 then none
  else some ((List.range height).map fun r => (List.range width).map fun c =>
    vignettePixel (entry image r c) (vignetteFactor height width r c))

/-! ## Remaining transforms (`dered`, `brighten`, `pixellate`, `scramble`)
and `pictool1.verify_image` -/

/-- Source `plugins2.dered`: sets `pixel.red = 0` for every pixel; the other
channels are untouched. -/
def dered (image : Buffer) : Buffer :=
  image.map fun row => row.map fun p => RGB.mk 0 p.green p.blue p.alpha

/-- Source `plugins2.brighten`: multiplies R, G, B by `factor`, rounds, and clamps
to at most 255 (no lower clamp); alpha untouched.  The float product fed to
Python `round` is modelled as the exact rational product. -/
def brighten (image : Buffer) (factor : ℚ := 5/4) : Buffer :=
  image.map fun row => row.map fun p =>
    RGB.mk (min (pyRound ((p.red : ℚ) * factor)) 255)
           (min (pyRound ((p.green : ℚ) * factor)) 255)
           (min (pyRound ((p.blue : ℚ) * factor)) 255) p.alpha

/-- Assignment `image[r][c] = p` on a buffer. -/
def setPix (b : Buffer) (r c : Nat) (p : RGB) : Buffer :=
  b.set r ((b.getD r []).set c p)

/-- The average pixel of block `[row, rowMax) × [col, colMax)` of the
current buffer: all four channels summed and divided by the cell count,
each rounded with Python `round` (`total / count` modelled as exact
rational division). -/
def blockAvg (b : Buffer) (row rowMax col colMax : Nat) : RGB :=
  let cells := (List.range (rowMax - row)).flatMap fun i =>
    (List.range (colMax - col)).map fun j => entry b (row + i) (col + j)
  RGB.mk (pyRound ((((cells.map RGB.red).sum : Int) : ℚ) / (cells.length : ℚ)))
         (pyRound ((((cells.map RGB.green).sum : Int) : ℚ) / (cells.length : ℚ)))
         (pyRound ((((cells.map RGB.blue).sum : Int) : ℚ) / (cells.length : ℚ)))
         (pyRound ((((cells.map RGB.alpha).sum : Int) : ℚ) / (cells.length : ℚ)))

/-- Assign pixel `p` to every cell of the block. -/
def fillBlock (b : Buffer) (row rowMax col colMax : Nat) (p : RGB) : Buffer :=
  (List.range (rowMax - row)).foldl (fun acc i =>
    (List.range (colMax - col)).foldl
      (fun acc2 j => setPix acc2 (row + i) (col + j) p) acc) b

/-- Source `plugins2.pixellate`: processes the `step × step` blocks in raster
order (`range(0, height, step)` × `range(0, width, step)`, edge blocks
clipped), averaging the current buffer over each block and writing the
average back before the next block is computed.  Blocks are disjoint, so
every average reads only pixels not yet overwritten. -/
def pixellate (image : Buffer) (step : Nat := 10) : Buffer :=
  let height := image.length
  let width := (image.headD []).length
  ((List.range ((height + step - 1) / step)).map (· * step)).foldl (fun acc row =>
    ((List.range ((width + step - 1) / step)).map (· * step)).foldl (fun acc2 col =>
      let rowMax := min (row + step) height
      let colMax := min (col + step) width
      fillBlock acc2 row rowMax col colMax (blockAvg acc2 row rowMax col colMax))
      acc) image

/-- Python `random.randint(lo, hi)` modelled with an explicit random source: the
oracle value is mapped into `[lo, hi]`. -/
def randint (lo hi oracleVal : Nat) : Nat := lo + oracleVal % (hi - lo + 1)

/-- Source `plugins2.scramble`: `amount` independent draws; draw `k` picks row and
column with `randint` and overwrites that pixel with uniformly random
R, G, B in `[0, 255]`, preserving the pixel's alpha at the moment of the
draw.  The random source is the explicit `oracle` (five values per draw). -/
def scramble (image : Buffer) (amount : Nat) (oracle : Nat → Nat) : Buffer :=
  let height := image.length
  let width := (image.headD []).length
  (List.range amount).foldl (fun acc k =>
    let r := randint 0 (height - 1) (oracle (5 * k))
    let c := randint 0 (width - 1) (oracle (5 * k + 1))
    let p := entry acc r c
    setPix acc r c (RGB.mk ((randint 0 255 (oracle (5 * k + 2)) : Nat) : Int)
                           ((randint 0 255 (oracle (5 * k + 3)) : Nat) : Int)
                           ((randint 0 255 (oracle (5 * k + 4)) : Nat) : Int)
                           p.alpha)) image

/-- Source `pictool1.verify_image`: the buffer is a non-empty list, its first row
is non-empty, and every row has the first row's length.  The source's
`type(buffer) == list` / `type(item) == RGB` checks are guaranteed by the
embedding's types. -/
def verify_image (buffer : Buffer) : Bool :=
  if buffer.length = 0 then false
  else if (buffer.headD []).length = 0 then false
  else buffer.all fun row => row.length == (buffer.headD []).length

/-! ## Dispatcher (`pictool1.py`: `extract_options`, `lookup_command`)

`extract_options` scans the argument list from position 1, removing each
`--key=value` token and coercing its value; `lookup_command` resolves a
command name against the attributes of the `plugins2` module. -/

/-- A coerced option value: boolean, integer, float (binary64, exact
rational value) or string. -/
inductive OptValue where
  | bool (b : Bool)
  | int (n : Int)
  | float (q : ℚ)
  | str (s : String)
  deriving DecidableEq, Repr

/-- Split a character list at the first character satisfying `p`:
returns the prefix and, when found, the remainder after the separator. -/
def splitFirst (p : Char → Bool) : List Char → List Char × Option (List Char)
  | [] => ([], none)
  | ch :: rest =>
    if p ch then ([], some rest)
    else
      let r := splitFirst p rest
      (ch :: r.1, r.2)

/-- Decimal value of a digit list. -/
def digitsToNat (l : List Char) : Nat := l.foldl (fun a ch => 10 * a + (ch.toNat - 48)) 0

/-- Python `float(value)` on plain decimal literals:
`sign? (digits [. digits*]? | . digits+) ([eE] sign? digits+)?`, correctly
rounded to binary64 (`fl`).  Whitespace, underscores, `inf` and `nan` are
outside the scope of this embedding. -/
def pyFloat (s : String) : Option ℚ :=
  let signed : ℚ × List Char :=
    match s.data with
    | '+' :: rest => (1, rest)
    | '-' :: rest => (-1, rest)
    | cs => (1, cs)
  let me := splitFirst (fun ch => ch == 'e' || ch == 'E') signed.2
  let expVal : Option Int :=
    match me.2 with
    | none => some 0
    | some ec =>
      let esigned : Int × List Char :=
        match ec with
        | '+' :: rest => (1, rest)
        | '-' :: rest => (-1, rest)
        | l => (1, l)
      if esigned.2 ≠ [] ∧ esigned.2.all Char.isDigit then
        some (esigned.1 * (digitsToNat esigned.2 : Int))
      else none
  match expVal with
  | none => none
  | some e =>
    let ipfp := splitFirst (fun ch => ch == '.') me.1
    let fp := ipfp.2.getD []
    if ipfp.1.all Char.isDigit ∧ fp.all Char.isDigit ∧ (ipfp.1 ≠ [] ∨ fp ≠ []) then
      some (fl (signed.1 * ((digitsToNat ipfp.1 : ℚ) +
        (digitsToNat fp : ℚ) / (10 : ℚ) ^ fp.length) * (10 : ℚ) ^ e))
    else none

/-- Python `str.isdigit` in the embedding's ASCII scope: non-empty and every
character an ASCII digit.  (Python's `isdigit` also accepts some
non-ASCII Unicode digit characters; the option strings of this tool are
ASCII.) -/
def pyIsDigit (s : String) : Bool := !s.data.isEmpty && s.data.all Char.isDigit

/-- Python `int(value)` on an all-digits string. -/
def pyIntOfDigits (s : String) : Int := (digitsToNat s.data : Int)

/-- The value coercion of `extract_options` (`pictool1.py` lines 127–135):
the exact strings True/False become booleans (`eval`); otherwise an
`isdigit` string becomes an integer; otherwise `float(value)` is
attempted; otherwise the string is kept unchanged. -/
def coerce_value (value : String) : OptValue :=
  if value = "True" then .bool true
  else if value = "False" then .bool false
  else if pyIsDigit value then .int (pyIntOfDigits value)
  else
    match pyFloat value with
    | some q => .float q
    | none => .str value

/-- One token of the `extract_options` scan: a token starting with `--`
and containing `=` is split at the first `=` (`item.find` — the leading
dashes cannot contain it), giving key `item[2:split]` and the coerced
value `item[split+1:]`.  Other tokens stay positional. -/
def parseOptToken (s : String) : Option (String × OptValue) :=
  match s.data with
  | '-' :: '-' :: rest =>
    match splitFirst (fun ch => ch == '=') rest with
    | (key, some value) => some (String.mk key, coerce_value (String.mk value))
    | (_, none) => none
  | _ => none

/-- Python dict assignment `options[key] = value`: overwrite in place when
the key exists (keeping its position), else append. -/
def dictInsert (d : List (String × OptValue)) (k : String) (v : OptValue) :
    List (String × OptValue) :=
  if d.any fun kv => kv.1 == k then
    d.map fun kv => if kv.1 == k then (k, v) else kv
  else d ++ [(k, v)]

/-- Source `pictool1.extract_options`: scans `args[1:]` left to right (`args[0]`,
the program name, is never inspected), removing each option token and
recording its coerced value; returns the remaining positional arguments
and the options dict as an insertion-ordered association list. -/
def extract_options (args : List String) :
    List String × List (String × OptValue) :=
  match args with
  | [] => ([], [])
  | a0 :: rest =>
    let res := rest.foldl (fun acc item =>
      match parseOptToken item with
      | some kv => (acc.1, dictInsert acc.2 kv.1 kv.2)
      | none => (acc.1 ++ [item], acc.2)) ([], [])
    (a0 :: res.1, res.2)

/-- A module attribute as `lookup_command` inspects it: a function with
its positional parameter names (`co_varnames[:co_argcount]`) and number
of defaults (`len(__defaults__)`), or a non-function attribute (class or
module) on which reading `__code__` raises `AttributeError`. -/
inductive PyAttr where
  | func (params : List String) (dsize : Nat)
  | other
  deriving DecidableEq, Repr

/-- A module's attribute table (`hasattr` / `getattr` look up by exact
name). -/
abbrev Module := List (String × PyAttr)

def lookupAttr (m : Module) (name : String) : Option PyAttr :=
  match m with
  | [] => none
  | (k, a) :: rest => if k = name then some a else lookupAttr rest name

/-- Outcome of `lookup_command`, the source's error strings represented
structurally:
* `unrecognizedCommand` — `error: unrecognized command <name>`;
* `attributeError` — the attribute exists but is not a function:
  `function.__code__` raises an uncaught `AttributeError`;
* `malformedPlugin` — `error: plugin <name> does not have default values
  after first parameter`;
* `unrecognizedOptions` — `error: plugin <name> does not recognize the
  following options: --k1, --k2, ...`, with `badargs` the offending keys
  in dict order;
* `ok` — the transform function is returned, ready to invoke. -/
inductive LookupResult where
  | unrecognizedCommand (command : String)
  | attributeError (command : String)
  | malformedPlugin (command : String)
  | unrecognizedOptions (command : String) (badargs : List String)
  | ok (command : String)
  deriving DecidableEq, Repr

/-- Source `pictool1.lookup_command` over a module table; `options` is the list
of option keys in dict insertion order. -/
def lookup_command (m : Module) (command : String) (options : List String) :
    LookupResult :=
  match lookupAttr m command with
  | none => .unrecognizedCommand command
  | some .other => .attributeError command
  | some (.func param dsize) =>
    if param.length ≠ dsize + 1 then .malformedPlugin command
    else if options.filter (fun key => !(param.contains key)) ≠ [] then
      .unrecognizedOptions command (options.filter fun key => !(param.contains key))
    else .ok command

/-- The attribute table of `plugins2.py`: the module dunders, the three
imports (`RGB`, `math`, `random` — attributes without `__code__`), and the
eleven plugin functions with their parameter lists and default counts. -/
def plugins2Module : Module :=
  [("__name__", .other), ("__doc__", .other), ("__package__", .other),
   ("__loader__", .other), ("__spec__", .other), ("__file__", .other),
   ("__cached__", .other), ("__builtins__", .other),
   ("RGB", .other), ("math", .other), ("random", .other),
   ("display", .func ["image"] 0),
   ("dered", .func ["image"] 0),
   ("mono", .func ["image", "sepia"] 1),
   ("flip", .func ["image", "vertical"] 1),
   ("transpose", .func ["image"] 0),
   ("rotate", .func ["image", "right"] 1),
   ("vignette", .func ["image"] 0),
   ("blur", .func ["image", "radius"] 1),
   ("pixellate", .func ["image", "step"] 1),
   ("scramble", .func ["image", "amount"] 1),
   ("brighten", .func ["image", "factor"] 1)]

/-- The fixed transform registry: the plugin functions of `plugins2.py`. -/
def transformNames : List String :=
  ["display", "dered", "mono", "flip", "transpose", "rotate", "vignette",
   "blur", "pixellate", "scramble", "brighten"]

theorem Dims.length {b : Buffer} {h w : Nat} (d : Dims b h w) : b.length = h := d.1

theorem Dims.row_length {b : Buffer} {h w : Nat} (d : Dims b h w)
    {row : List RGB} (hrow : row ∈ b) : row.length = w := d.2 row hrow

theorem getD_map_range {α : Type} (f : Nat → α) (n i : Nat) (d : α) (hi : i < n) :
    ((List.range n).map f).getD i d = f i := by
  rw [List.getD_eq_getElem?_getD]
  rw [List.getElem?_map]
  rw [List.getElem?_range hi]
  rfl

theorem dims_map_range {f : Nat → List RGB} {h w : Nat}
    (hf : ∀ i < h, (f i).length = w) : Dims ((List.range h).map f) h w := by
  constructor
  · simp
  · intro row hrow
    simp only [List.mem_map, List.mem_range] at hrow
    obtain ⟨i, hi, rfl⟩ := hrow
    exact hf i hi

theorem entry_map_range {f : Nat → List RGB} {r : Nat} (hr : r < n) :
    entry ((List.range n).map f) r c = (f r).getD c default := by
  unfold entry
  rw [getD_map_range _ _ _ _ hr]

theorem entry_eq_getElem {b : Buffer} {r c : Nat}
    (h1 : r < b.length) (h2 : c < b[r].length) :
    entry b r c = b[r][c] := by
  unfold entry
  rw [List.getD_eq_getElem _ _ h1, List.getD_eq_getElem _ _ h2]

/-- Extensionality for rectangular buffers: equal dimensions and equal
entries force equality. -/
theorem buffer_ext {b b' : Buffer} {h w : Nat}
    (db : Dims b h w) (db' : Dims b' h w)
    (he : ∀ r < h, ∀ c < w, entry b r c = entry b' r c) : b = b' := by
  apply List.ext_getElem
  · rw [db.length, db'.length]
  · intro r h1 h2
    have hrb : b[r] ∈ b := List.getElem_mem h1
    have hrb' : b'[r] ∈ b' := List.getElem_mem h2
    apply List.ext_getElem
    · rw [db.row_length hrb, db'.row_length hrb']
    · intro c hc1 hc2
      have hr : r < h := by rw [← db.length]; exact h1
      have hcw : c < w := by rw [← db.row_length hrb]; exact hc1
      have := he r hr c hcw
      rwa [entry_eq_getElem h1 hc1, entry_eq_getElem h2 hc2] at this

/-- On a non-empty rectangular buffer, `transpose` is the `w × h` table of
swapped entries. -/
theorem transpose_eq {b : Buffer} {h w : Nat} (d : Dims b h w)
    (hh : 0 < h) (hw : 0 < w) :
    transpose b = (List.range w).map fun c => (List.range h).map fun r => entry b r c := by
  obtain ⟨hl, hrows⟩ := d
  cases b with
  | nil => simp at hl; omega
  | cons row rest =>
    have hwrow : row.length = w := hrows row (List.mem_cons_self row rest)
    cases row with
    | nil => simp at hwrow; omega
    | cons a as =>
      unfold transpose
      rw [if_neg (by simp)]
      simp only [List.headD_cons]
      rw [hwrow, hl]

theorem transpose_dims {b : Buffer} {h w : Nat} (d : Dims b h w)
    (hh : 0 < h) (hw : 0 < w) : Dims (transpose b) w h := by
  rw [transpose_eq d hh hw]
  exact dims_map_range fun i _ => by simp

theorem transpose_entry {b : Buffer} {h w : Nat} (d : Dims b h w)
    (hh : 0 < h) (hw : 0 < w) {i j : Nat} (hi : i < w) (hj : j < h) :
    entry (transpose b) i j = entry b j i := by
  rw [transpose_eq d hh hw]
  rw [entry_map_range hi, getD_map_range _ _ _ _ hj]

theorem flipV_dims {b : Buffer} {h w : Nat} (d : Dims b h w) :
    Dims (flip b true) h w := by
  unfold flip
  refine ⟨by simp [d.length], ?_⟩
  intro row hrow
  exact d.row_length (by simpa using hrow)

theorem flipV_entry {b : Buffer} {h w : Nat} (d : Dims b h w)
    {i j : Nat} (hi : i < h) : entry (flip b true) i j = entry b (h - 1 - i) j := by
  unfold flip entry
  rw [if_pos rfl]
  have h1 : i < b.reverse.length := by rw [List.length_reverse, d.length]; exact hi
  rw [List.getD_eq_getElem _ _ h1, List.getElem_reverse]
  have h2 : b.length - 1 - i < b.length := by rw [d.length]; omega
  rw [← List.getD_eq_getElem b [] h2]
  have hidx : b.length - 1 - i = h - 1 - i := by rw [d.length]
  rw [hidx]

theorem flipH_dims {b : Buffer} {h w : Nat} (d : Dims b h w) :
    Dims (flip b false) h w := by
  unfold flip
  refine ⟨by simp [d.length], ?_⟩
  intro row hrow
  simp only [if_neg Bool.false_ne_true, List.mem_map] at hrow
  obtain ⟨r, hr, rfl⟩ := hrow
  simp [d.row_length hr]

theorem flipH_entry {b : Buffer} {h w : Nat} (d : Dims b h w)
    {i j : Nat} (hi : i < h) (hj : j < w) :
    entry (flip b false) i j = entry b i (w - 1 - j) := by
  unfold flip entry
  simp only [if_neg Bool.false_ne_true]
  have h1 : i < b.length := by rw [d.length]; exact hi
  have h1m : i < (b.map List.reverse).length := by simpa using h1
  rw [List.getD_eq_getElem _ _ h1m, List.getD_eq_getElem _ _ h1]
  rw [List.getElem_map]
  have hlen : b[i].length = w := d.row_length (List.getElem_mem h1)
  have h2 : j < b[i].reverse.length := by rw [List.length_reverse, hlen]; exact hj
  have h3 : w - 1 - j < b[i].length := by rw [hlen]; omega
  rw [List.getD_eq_getElem _ _ h2, List.getElem_reverse,
      List.getD_eq_getElem _ _ h3]
  congr 1
  rw [hlen]

theorem rotate_left_dims {b : Buffer} {h w : Nat} (d : Dims b h w)
    (hh : 0 < h) (hw : 0 < w) : Dims (rotate b false) w h := by
  unfold rotate
  rw [if_neg Bool.false_ne_true]
  exact flipV_dims (transpose_dims d hh hw)

theorem rotate_left_entry {b : Buffer} {h w : Nat} (d : Dims b h w)
    (hh : 0 < h) (hw : 0 < w) {i j : Nat} (hi : i < w) (hj : j < h) :
    entry (rotate b false) i j = entry b j (w - 1 - i) := by
  unfold rotate
  rw [if_neg Bool.false_ne_true]
  rw [flipV_entry (transpose_dims d hh hw) hi]
  exact transpose_entry d hh hw (by omega) hj

theorem rotate_right_dims {b : Buffer} {h w : Nat} (d : Dims b h w)
    (hh : 0 < h) (hw : 0 < w) : Dims (rotate b true) w h := by
  unfold rotate
  rw [if_pos rfl]
  exact transpose_dims (flipV_dims d) hh hw

theorem rotate_right_entry {b : Buffer} {h w : Nat} (d : Dims b h w)
    (hh : 0 < h) (hw : 0 < w) {i j : Nat} (hi : i < w) (hj : j < h) :
    entry (rotate b true) i j = entry b (h - 1 - j) i := by
  unfold rotate
  rw [if_pos rfl]
  rw [transpose_entry (flipV_dims d) hh hw hi hj]
  exact flipV_entry d hj

/-- C8: for every non-empty rectangular buffer and every fixed boolean `v`,
`flip(vertical=v)` applied twice restores the original buffer;
`vertical=false` reverses the pixel order within each row and
`vertical=true` reverses the order of rows, each an involution. -/
theorem flip_involution_c8 (b : Buffer) (h w : Nat) (v : Bool)
    (hh : 0 < h) (hw : 0 < w) (d : Dims b h w) :
    flip (flip b v) v = b ∧
    flip b false = b.map List.reverse ∧ flip b true = b.reverse := by
  refine ⟨?_, rfl, rfl⟩
  cases v
  · unfold flip
    simp [List.map_map, Function.comp_def]
  · unfold flip
    simp

/-- Witness for C8 on a concrete 2×2 buffer. -/
theorem flip_involution_c8_witness :
    flip (flip [[RGB.mk 10 20 30 255, RGB.mk 40 50 60 255],
                [RGB.mk 70 80 90 255, RGB.mk 100 110 120 255]] true) true =
      [[RGB.mk 10 20 30 255, RGB.mk 40 50 60 255],
       [RGB.mk 70 80 90 255, RGB.mk 100 110 120 255]] ∧
    flip [[RGB.mk 10 20 30 255, RGB.mk 40 50 60 255],
          [RGB.mk 70 80 90 255, RGB.mk 100 110 120 255]] false =
      [[RGB.mk 40 50 60 255, RGB.mk 10 20 30 255],
       [RGB.mk 100 110 120 255, RGB.mk 70 80 90 255]] := by
  constructor
  · exact (flip_involution_c8 _ 2 2 true (by decide) (by decide) (by decide)).1
  · rw [(flip_involution_c8 [[RGB.mk 10 20 30 255, RGB.mk 40 50 60 255],
          [RGB.mk 70 80 90 255, RGB.mk 100 110 120 255]] 2 2 false
          (by decide) (by decide) (by decide)).2.1]
    decide

/-- C7: four successive applications of `rotate(right=v)` with a fixed `v`
restore a non-empty rectangular buffer; a left rotation is transpose then
vertical flip and a right rotation is vertical flip then transpose. -/
theorem rotate_four_c7 (b : Buffer) (h w : Nat) (v : Bool)
    (hh : 0 < h) (hw : 0 < w) (d : Dims b h w) :
    rotate (rotate (rotate (rotate b v) v) v) v = b ∧
    rotate b false = flip (transpose b) true ∧
    rotate b true = transpose (flip b true) := by
  refine ⟨?_, rfl, rfl⟩
  cases v
  · have d1 := rotate_left_dims d hh hw
    have d2 := rotate_left_dims d1 hw hh
    have d3 := rotate_left_dims d2 hh hw
    have d4 := rotate_left_dims d3 hw hh
    apply buffer_ext d4 d
    intro i hi j hj
    rw [rotate_left_entry d3 hw hh hi hj]
    rw [rotate_left_entry d2 hh hw hj (by omega)]
    rw [rotate_left_entry d1 hw hh (by omega) (by omega)]
    rw [rotate_left_entry d hh hw (by omega) (by omega)]
    have e1 : h - 1 - (h - 1 - i) = i := by omega
    have e2 : w - 1 - (w - 1 - j) = j := by omega
    rw [e1, e2]
  · have d1 := rotate_right_dims d hh hw
    have d2 := rotate_right_dims d1 hw hh
    have d3 := rotate_right_dims d2 hh hw
    have d4 := rotate_right_dims d3 hw hh
    apply buffer_ext d4 d
    intro i hi j hj
    rw [rotate_right_entry d3 hw hh hi hj]
    rw [rotate_right_entry d2 hh hw (by omega) hi]
    rw [rotate_right_entry d1 hw hh (by omega) (by omega)]
    rw [rotate_right_entry d hh hw (by omega) (by omega)]
    have e1 : h - 1 - (h - 1 - i) = i := by omega
    have e2 : w - 1 - (w - 1 - j) = j := by omega
    rw [e1, e2]

/-- Witness for C7 on a concrete 2×3 buffer. -/
theorem rotate_four_c7_witness :
    rotate (rotate (rotate (rotate
      [[RGB.mk 1 2 3 255, RGB.mk 4 5 6 255, RGB.mk 7 8 9 200],
       [RGB.mk 10 11 12 255, RGB.mk 13 14 15 255, RGB.mk 16 17 18 100]]
      true) true) true) true =
      [[RGB.mk 1 2 3 255, RGB.mk 4 5 6 255, RGB.mk 7 8 9 200],
       [RGB.mk 10 11 12 255, RGB.mk 13 14 15 255, RGB.mk 16 17 18 100]] :=
  (rotate_four_c7 _ 2 3 true (by decide) (by decide) (by decide)).1

theorem length_intRange (lo hi : Int) : (intRange lo hi).length = (hi + 1 - lo).toNat := by
  simp [intRange]

theorem range_map_sum_Icc {M : Type} [AddCommMonoid M] (f : Int → M) (lo : Int) (n : Nat) :
    ((List.range (n + 1)).map fun k : Nat => f (lo + (k : Int))).sum
      = ∑ i in Finset.Icc lo (lo + (n : Int)), f i := by
  induction n generalizing lo with
  | zero => simp [List.range_succ]
  | succ m ih =>
    rw [List.range_succ, List.map_append, List.sum_append, ih lo]
    have htop : Finset.Icc lo (lo + ((m + 1 : Nat) : Int)) =
        insert (lo + ((m + 1 : Nat) : Int)) (Finset.Icc lo (lo + (m : Int))) := by
      apply Finset.ext
      intro x
      simp only [Finset.mem_insert, Finset.mem_Icc]
      push_cast
      omega
    rw [htop, Finset.sum_insert (by simp only [Finset.mem_Icc]; push_cast; omega)]
    simp only [List.map_cons, List.map_nil, List.sum_cons, List.sum_nil, add_zero]
    abel

theorem intRange_map_sum {M : Type} [AddCommMonoid M] (f : Int → M) (lo hi : Int) :
    ((intRange lo hi).map f).sum = ∑ i in Finset.Icc lo hi, f i := by
  unfold intRange
  rw [List.map_map]
  simp only [Function.comp_def]
  rcases le_or_lt lo hi with hle | hlt
  · have harg : (hi + 1 - lo).toNat = (hi - lo).toNat + 1 := by omega
    rw [harg, range_map_sum_Icc f lo ((hi - lo).toNat)]
    have hbound : lo + (((hi - lo).toNat : Nat) : Int) = hi := by omega
    rw [hbound]
  · have hempty : (hi + 1 - lo).toNat = 0 := by omega
    rw [hempty, Finset.Icc_eq_empty (by omega)]
    simp

theorem sum_flatMap_list {α M : Type} [AddCommMonoid M] (l : List α) (f : α → List M) :
    (l.flatMap f).sum = (l.map fun a => (f a).sum).sum := by
  induction l with
  | nil => simp
  | cons a t ih => simp [ih]

theorem headD_length {b : Buffer} {h w : Nat} (d : Dims b h w) (hh : 0 < h) :
    (b.headD []).length = w := by
  cases b with
  | nil => rw [← d.length] at hh; simp at hh
  | cons row rest => exact d.row_length (List.mem_cons_self row rest)

/-- The copy `RGB(p.red, p.green, p.blue, p.alpha)` made by `blur` is the
identity on pixels, so the snapshot equals the buffer. -/
theorem snapshot_eq (b : Buffer) :
    (b.map fun row => row.map fun p => RGB.mk p.red p.green p.blue p.alpha) = b := by
  have hid : (fun p : RGB => RGB.mk p.red p.green p.blue p.alpha) = id := rfl
  rw [hid]
  simp

theorem window_map_sum (b : Buffer) (ch : RGB → Int) (rlo rhi clo chi : Int) :
    ((((intRange rlo rhi).flatMap fun i =>
        (intRange clo chi).map fun j => entry b i.toNat j.toNat).map ch).sum : Int) =
      ∑ p in Finset.Icc rlo rhi ×ˢ Finset.Icc clo chi, ch (entry b p.1.toNat p.2.toNat) := by
  rw [List.map_flatMap, sum_flatMap_list, Finset.sum_product]
  rw [← intRange_map_sum (fun i =>
    ∑ j in Finset.Icc clo chi, ch (entry b i.toNat j.toNat)) rlo rhi]
  congr 1
  apply List.map_congr_left
  intro i _
  rw [List.map_map, ← intRange_map_sum (fun j => ch (entry b i.toNat j.toNat)) clo chi]
  rfl

theorem window_length (b : Buffer) (rlo rhi clo chi : Int) :
    ((intRange rlo rhi).flatMap fun i =>
        (intRange clo chi).map fun j => entry b i.toNat j.toNat).length =
      (Finset.Icc rlo rhi ×ˢ Finset.Icc clo chi).card := by
  rw [List.length_flatMap, Finset.card_product, Int.card_Icc, Int.card_Icc]
  have hconst : ∀ x ∈ List.map (List.length ∘ fun i : Int =>
      (intRange clo chi).map fun j => entry b i.toNat j.toNat) (intRange rlo rhi),
      x = (chi + 1 - clo).toNat := by
    intro x hx
    simp only [List.mem_map, Function.comp] at hx
    obtain ⟨i, _, rfl⟩ := hx
    simp [length_intRange]
  rw [List.eq_replicate_of_mem hconst, List.sum_replicate, smul_eq_mul,
      List.length_map, length_intRange]

/-- On a rectangular buffer `blur` is the table of `blurPixel`s over the
input (the snapshot copy is the identity on values); shared helper. -/
theorem blur_eq {b : Buffer} {h w : Nat} (radius : Int) (hh : 0 < h)
    (d : Dims b h w) :
    blur b radius = (List.range h).map fun r => (List.range w).map fun c =>
      blurPixel b h w radius r c := by
  unfold blur
  rw [snapshot_eq, d.length, headD_length d hh]

/-- C5: on a non-empty rectangular buffer with `radius > 0`, `blur` writes
at `(r, c)` the four per-channel averages over the square window of side
`2·radius + 1` clamped to the edges, each rounded independently, every
average taken over the unmodified input buffer `b` (the snapshot), never
over already-blurred values. -/
theorem blur_box_c5 (b : Buffer) (h w : Nat) (radius : Int)
    (hh : 0 < h) (hw : 0 < w) (hrad : 0 < radius) (d : Dims b h w) :
    Dims (blur b radius) h w ∧
    ∀ r, r < h → ∀ c, c < w →
      entry (blur b radius) r c =
        RGB.mk (pyRound (windowAvg b (blurWindow h w radius r c) RGB.red))
               (pyRound (windowAvg b (blurWindow h w radius r c) RGB.green))
               (pyRound (windowAvg b (blurWindow h w radius r c) RGB.blue))
               (pyRound (windowAvg b (blurWindow h w radius r c) RGB.alpha)) := by
  have hblur := blur_eq radius hh d
  constructor
  · rw [hblur]
    exact dims_map_range fun i _ => by simp
  · intro r hr c hc
    rw [hblur, entry_map_range hr, getD_map_range _ _ _ _ hc]
    simp only [blurPixel, blurWindow, windowAvg]
    rw [window_map_sum, window_map_sum, window_map_sum, window_map_sum, window_length]

unseal Rat.add Rat.mul Rat.inv Rat.sub in
/-- Witness for C5: a 2×2 buffer with `radius = 1`; the window at `(0,0)`
covers all four pixels, whose red average is 15. -/
theorem blur_box_c5_witness :
    entry (blur [[RGB.mk 0 0 0 255, RGB.mk 10 0 0 255],
                 [RGB.mk 20 0 0 255, RGB.mk 30 0 0 255]] 1) 0 0 = RGB.mk 15 0 0 255 := by
  have hc5 := (blur_box_c5 [[RGB.mk 0 0 0 255, RGB.mk 10 0 0 255],
      [RGB.mk 20 0 0 255, RGB.mk 30 0 0 255]] 2 2 1
      (by decide) (by decide) (by decide) (by decide)).2 0 (by decide) 0 (by decide)
  rw [hc5]
  decide

theorem pow2_pos (e : Int) : 0 < pow2 e := zpow_pos (by norm_num) e

theorem pow2_add (e1 e2 : Int) : pow2 (e1 + e2) = pow2 e1 * pow2 e2 :=
  zpow_add₀ (by norm_num) e1 e2

theorem pow2_mono {e1 e2 : Int} (h : e1 ≤ e2) : pow2 e1 ≤ pow2 e2 := by
  unfold pow2
  exact zpow_le_zpow_right₀ (by norm_num) h

theorem log2Fuel_correct : ∀ fuel n, 0 < n → n ≤ fuel →
    2 ^ log2Fuel fuel n ≤ n ∧ n < 2 ^ (log2Fuel fuel n + 1) := by
  intro fuel
  induction fuel with
  | zero => intro n h1 h2; omega
  | succ f ih =>
    intro n h1 h2
    unfold log2Fuel
    by_cases hn : 2 ≤ n
    · rw [if_pos hn]
      obtain ⟨hlo, hhi⟩ := ih (n / 2) (by omega) (by omega)
      set k := log2Fuel f (n / 2) with hk
      have e1 : (2 : ℕ) ^ (k + 1) = 2 * 2 ^ k := by rw [pow_succ]; ring
      have e2 : (2 : ℕ) ^ (k + 1 + 1) = 4 * 2 ^ k := by rw [pow_succ, pow_succ]; ring
      rw [e1] at hhi
      constructor
      · rw [e1]; omega
      · rw [e2]; omega
    · rw [if_neg hn]
      constructor
      · simpa using h1
      · simpa using by omega

theorem natLog2_correct {n : Nat} (h : 0 < n) :
    2 ^ natLog2 n ≤ n ∧ n < 2 ^ (natLog2 n + 1) :=
  log2Fuel_correct n n h le_rfl

theorem qlog2_correct (q : ℚ) (hq : 0 < q) :
    pow2 (qlog2 q) ≤ q ∧ q < pow2 (qlog2 q + 1) := by
  have hnum : 0 < q.num := Rat.num_pos.mpr hq
  have hnum1 : 0 < q.num.natAbs := Int.natAbs_pos.mpr hnum.ne'
  have hden : 0 < q.den := q.den_pos
  obtain ⟨hna, hnb⟩ := natLog2_correct hnum1
  obtain ⟨hda, hdb⟩ := natLog2_correct hden
  set a := natLog2 q.num.natAbs with ha
  set bb := natLog2 q.den with hbb
  have hq_eq : q = (q.num.natAbs : ℚ) / (q.den : ℚ) := by
    have h2 : ((q.num.natAbs : ℕ) : ℚ) = (q.num : ℚ) := by
      rw [Int.cast_natAbs]
      exact_mod_cast abs_of_nonneg hnum.le
    rw [h2]
    exact (Rat.num_div_den q).symm
  have c1 : ((q.num.natAbs : ℕ) : ℚ) < ((2 ^ (a + 1) : ℕ) : ℚ) := by exact_mod_cast hnb
  have c2 : ((2 ^ bb : ℕ) : ℚ) ≤ ((q.den : ℕ) : ℚ) := by exact_mod_cast hda
  have c3 : (0 : ℚ) < ((q.den : ℕ) : ℚ) := by exact_mod_cast hden
  have c4 : (0 : ℚ) ≤ ((q.num.natAbs : ℕ) : ℚ) := by positivity
  have c5 : ((2 ^ a : ℕ) : ℚ) ≤ ((q.num.natAbs : ℕ) : ℚ) := by exact_mod_cast hna
  have c6 : ((q.den : ℕ) : ℚ) < ((2 ^ (bb + 1) : ℕ) : ℚ) := by exact_mod_cast hdb
  have c7 : (0 : ℚ) < ((q.num.natAbs : ℕ) : ℚ) := by exact_mod_cast hnum1
  have hub : q < pow2 ((a : Int) - (bb : Int) + 1) := by
    have hpw : pow2 ((a : Int) - (bb : Int) + 1) =
        ((2 ^ (a + 1) : ℕ) : ℚ) / ((2 ^ bb : ℕ) : ℚ) := by
      unfold pow2
      rw [show (a : Int) - (bb : Int) + 1 = ((a + 1 : ℕ) : Int) - ((bb : ℕ) : Int) by
        push_cast; ring]
      rw [zpow_sub₀ (by norm_num), zpow_natCast, zpow_natCast]
      push_cast
      ring
    rw [hq_eq, hpw, div_lt_div_iff c3 (by positivity)]
    have t1 : ((q.num.natAbs : ℕ) : ℚ) * ((2 ^ bb : ℕ) : ℚ) ≤
        ((q.num.natAbs : ℕ) : ℚ) * ((q.den : ℕ) : ℚ) := mul_le_mul_of_nonneg_left c2 c4
    have t2 : ((q.num.natAbs : ℕ) : ℚ) * ((q.den : ℕ) : ℚ) <
        ((2 ^ (a + 1) : ℕ) : ℚ) * ((q.den : ℕ) : ℚ) := mul_lt_mul_of_pos_right c1 c3
    linarith
  have hlb : pow2 ((a : Int) - (bb : Int) - 1) < q := by
    have hpw : pow2 ((a : Int) - (bb : Int) - 1) =
        ((2 ^ a : ℕ) : ℚ) / ((2 ^ (bb + 1) : ℕ) : ℚ) := by
      unfold pow2
      rw [show (a : Int) - (bb : Int) - 1 = ((a : ℕ) : Int) - ((bb + 1 : ℕ) : Int) by
        push_cast; ring]
      rw [zpow_sub₀ (by norm_num), zpow_natCast, zpow_natCast]
      push_cast
      ring
    rw [hq_eq, hpw, div_lt_div_iff (by positivity) c3]
    have t1 : ((2 ^ a : ℕ) : ℚ) * ((q.den : ℕ) : ℚ) ≤
        ((q.num.natAbs : ℕ) : ℚ) * ((q.den : ℕ) : ℚ) := mul_le_mul_of_nonneg_right c5 c3.le
    have t2 : ((q.num.natAbs : ℕ) : ℚ) * ((q.den : ℕ) : ℚ) <
        ((q.num.natAbs : ℕ) : ℚ) * ((2 ^ (bb + 1) : ℕ) : ℚ) := mul_lt_mul_of_pos_left c6 c7
    linarith
  simp only [qlog2]
  rw [← ha, ← hbb]
  split_ifs with h1 h2
  · exact absurd h1 (not_le.mpr hub)
  · refine ⟨hlb.le, ?_⟩
    rwa [sub_add_cancel]
  · exact ⟨not_lt.mp h2, hub⟩

theorem pyRound_ge_floor (q : ℚ) : ⌊q⌋ ≤ pyRound q := by
  unfold pyRound
  split_ifs <;> omega

theorem fl_pos {q : ℚ} (h : 0 < q) : 0 < fl q := by
  have habs : |q| = q := abs_of_pos h
  have hq1 : pow2 (qlog2 q) ≤ q := (qlog2_correct q h).1
  have hdiv : (1 : ℚ) ≤ q / pow2 (qlog2 q - 52) := by
    rw [le_div_iff₀ (pow2_pos _), one_mul]
    exact le_trans (pow2_mono (by omega)) hq1
  have hm : 1 ≤ pyRound (q / pow2 (qlog2 q - 52)) :=
    le_trans (Int.le_floor.mpr (by exact_mod_cast hdiv)) (pyRound_ge_floor _)
  simp only [fl, habs]
  rw [if_neg h.ne', if_neg (not_lt.mpr h.le), one_mul]
  exact mul_pos (by exact_mod_cast lt_of_lt_of_le zero_lt_one hm) (pow2_pos _)

theorem isqrtFuel_ge_one : ∀ fuel n x, 1 ≤ n → 1 ≤ x → 1 ≤ isqrtFuel fuel n x := by
  intro fuel
  induction fuel with
  | zero => intro n x _ h2; exact h2
  | succ f ih =>
    intro n x h1 h2
    unfold isqrtFuel
    have hy1 : 1 ≤ (x + n / x) / 2 := by
      rcases Nat.lt_or_ge x 2 with hx | hx
      · have hx1 : x = 1 := by omega
        subst hx1
        rw [Nat.div_one]
        omega
      · have hmono : x / 2 ≤ (x + n / x) / 2 :=
          Nat.div_le_div_right (Nat.le_add_right x (n / x))
        omega
    show 1 ≤ if (x + n / x) / 2 < x then isqrtFuel f n ((x + n / x) / 2) else x
    split
    · exact ih n _ h1 hy1
    · exact h2

theorem isqrt_pos {n : Nat} (h : 2 ≤ n) : 1 ≤ isqrt n := by
  unfold isqrt
  rw [if_neg (by omega)]
  exact isqrtFuel_ge_one n n n (by omega) (by omega)

theorem sqrtD_pos {x : ℚ} (hx : 0 < x) : 0 < sqrtD x := by
  have hql : pow2 (qlog2 x) ≤ x := (qlog2_correct x hx).1
  have hs : 2 * ((qlog2 x - 104).fdiv 2) ≤ qlog2 x - 104 := by
    have heq := Int.fmod_add_fdiv (qlog2 x - 104) 2
    have hnn : 0 ≤ (qlog2 x - 104).fmod 2 := Int.fmod_nonneg' (qlog2 x - 104) (by norm_num)
    omega
  have hA : pow2 104 ≤ x * pow2 (-(2 * ((qlog2 x - 104).fdiv 2))) := by
    calc pow2 104 = pow2 (qlog2 x) * pow2 (104 - qlog2 x) := by
          rw [← pow2_add]; congr 1; ring
    _ ≤ x * pow2 (-(2 * ((qlog2 x - 104).fdiv 2))) := by
          apply mul_le_mul hql (pow2_mono (by omega)) (pow2_pos _).le
            (le_trans (pow2_pos _).le hql)
  have hfloor : (2 ^ 104 : Int) ≤ ⌊x * pow2 (-(2 * ((qlog2 x - 104).fdiv 2)))⌋ := by
    apply Int.le_floor.mpr
    calc ((2 ^ 104 : Int) : ℚ) = pow2 104 := by
          unfold pow2
          norm_num [zpow_natCast]
    _ ≤ _ := hA
  have hm0 : 1 ≤ isqrt ⌊x * pow2 (-(2 * ((qlog2 x - 104).fdiv 2)))⌋.toNat := by
    apply isqrt_pos
    omega
  simp only [sqrtD]
  rw [if_neg (not_le.mpr hx)]
  set m0 := isqrt ⌊x * pow2 (-(2 * ((qlog2 x - 104).fdiv 2)))⌋.toNat
  have hone : ∀ m : Nat, 1 ≤ m → (0 : ℚ) < (m : ℚ) * pow2 ((qlog2 x - 104).fdiv 2) := by
    intro m hm
    exact mul_pos (by exact_mod_cast hm) (pow2_pos _)
  split_ifs <;> [exact hone _ (by omega); exact hone _ hm0; exact hone _ hm0;
    exact hone _ (by omega)]

set_option maxRecDepth 100000 in
unseal Rat.add Rat.mul Rat.inv Rat.sub in
/-- C6 counterexample: the claim "`mono(sepia=false)` applied twice yields
exactly the same buffer contents as applying it once" fails at the 1×1
buffer `[[RGB(1, 1, 2, 255)]]`.  One application writes gray value
`int(0.3*1 + 0.6*1 + 0.1*2) = int(1.0999999999999999) = 1`; the second
writes `int(0.3*1 + 0.6*1 + 0.1*1) = int(0.9999999999999999) = 0`,
because `0.3 + 0.6 + 0.1 < 1` in binary64. -/
theorem mono_not_idempotent_c6 :
    mono (mono [[RGB.mk 1 1 2 255]] false) false ≠ mono [[RGB.mk 1 1 2 255]] false ∧
    mono [[RGB.mk 1 1 2 255]] false = [[RGB.mk 1 1 1 255]] ∧
    mono (mono [[RGB.mk 1 1 2 255]] false) false = [[RGB.mk 0 0 0 255]] := by
  refine ⟨?_, by decide, by decide⟩
  decide

/-- C6 amended: `mono(sepia=false)` applied twice equals applying it once
on every buffer whose pixels' one-pass gray values are fixed points of the
binary64 gray computation (truncating the float sum of an already-gray
pixel need not reproduce it exactly, since `0.3 + 0.6 + 0.1 ≠ 1` in
binary64; gray value 1, for example, maps to 0). -/
theorem mono_idempotent_amended_c6 (b : Buffer)
    (hfix : ∀ row ∈ b, ∀ p ∈ row,
      pyInt (brightnessD (grayOf p) (grayOf p) (grayOf p)) = grayOf p) :
    mono (mono b false) false = mono b false := by
  unfold mono
  rw [List.map_map]
  apply List.map_congr_left
  intro row hrow
  simp only [Function.comp]
  rw [List.map_map]
  apply List.map_congr_left
  intro p hp
  simp only [Function.comp]
  have hg := hfix row hrow p hp
  simp only [monoPixel, if_neg Bool.false_ne_true, grayOf] at hg ⊢
  rw [hg]

set_option maxRecDepth 100000 in
unseal Rat.add Rat.mul Rat.inv Rat.sub in
/-- Witness for C6 amended: the pixel `RGB(100, 200, 50, 255)` has gray
value 155, a fixed point of the binary64 gray computation. -/
theorem mono_idempotent_amended_c6_witness :
    mono (mono [[RGB.mk 100 200 50 255]] false) false =
      mono [[RGB.mk 100 200 50 255]] false ∧
    mono [[RGB.mk 100 200 50 255]] false = [[RGB.mk 155 155 155 255]] := by
  constructor
  · apply mono_idempotent_amended_c6
    decide
  · decide

set_option maxRecDepth 100000 in
unseal Rat.add Rat.mul Rat.inv Rat.sub in
/-- C9 counterexample: the claim describes the output pixels of `vignette`
for EVERY non-empty rectangular buffer, but on a 1×1 buffer
`H = math.sqrt(0**2 + 0**2) = 0.0` and the first per-pixel computation
`d / H` raises `ZeroDivisionError`: there is no output buffer at all. -/
theorem vignette_crash_c9_counterexample :
    vignette [[RGB.mk 10 20 30 255]] = none := by decide

/-- On a non-1×1 rectangular buffer `vignette` succeeds and produces the
table of `vignettePixel`s (shared helper for the vignette claims). -/
theorem vignette_spec_aux (b : Buffer) (h w : Nat)
    (hh : 0 < h) (hsize : 1 < h ∨ 1 < w) (d : Dims b h w) :
    vignette b = some ((List.range h).map fun r => (List.range w).map fun c =>
      vignettePixel (entry b r c) (vignetteFactor h w r c)) := by
  have hn : 0 < ((h / 2) ^ 2 + (w / 2) ^ 2 : Nat) := by
    rcases hsize with h2 | w2
    · have hcr : 0 < h / 2 := by omega
      have := Nat.mul_pos hcr hcr
      simp only [pow_two]
      omega
    · have hcc : 0 < w / 2 := by omega
      have := Nat.mul_pos hcc hcc
      simp only [pow_two]
      omega
  have hne : sqrtD (fl ((((h / 2) ^ 2 + (w / 2) ^ 2 : Nat) : ℚ))) ≠ 0 :=
    (sqrtD_pos (fl_pos (by exact_mod_cast hn))).ne'
  simp only [vignette]
  rw [d.length, headD_length d hh]
  rw [if_neg hne]

/-- Applying `vignette` to a 1×1 buffer raises `ZeroDivisionError` (shared helper). -/
theorem vignette_none_aux (b : Buffer) (d : Dims b 1 1) : vignette b = none := by
  have hz : sqrtD (fl (0 : ℚ)) = 0 := by
    norm_num [fl, sqrtD]
  simp only [vignette]
  rw [d.length, headD_length d one_pos]
  norm_num [hz]

set_option maxRecDepth 1000000 in
unseal Rat.add Rat.mul Rat.inv Rat.sub in
/-- C9 amended: on every non-empty rectangular buffer except 1×1 (where
`d / H` raises `ZeroDivisionError`), `vignette` keeps the dimensions and
sets each pixel's R, G, B at `(r, c)` to `round(old · factor)` with
`factor = 1 − (d/H)²` evaluated in binary64 arithmetic (which can differ
from the exact real-arithmetic value at round-half-even ties); alpha is
unchanged, and the result is not clamped to non-negative: a buffer holding
a negative input channel yields a negative output channel. -/
theorem vignette_amended_c9 (b : Buffer) (h w : Nat)
    (hh : 0 < h) (hw : 0 < w) (hsize : 1 < h ∨ 1 < w) (d : Dims b h w) :
    ∃ b2, vignette b = some b2 ∧ Dims b2 h w ∧
      (∀ r, r < h → ∀ c, c < w →
        entry b2 r c =
          RGB.mk (pyRound (fl (fl ((entry b r c).red : ℚ) * vignetteFactor h w r c)))
                 (pyRound (fl (fl ((entry b r c).green : ℚ) * vignetteFactor h w r c)))
                 (pyRound (fl (fl ((entry b r c).blue : ℚ) * vignetteFactor h w r c)))
                 ((entry b r c).alpha)) ∧
      (∃ bres, vignette [[RGB.mk 5 5 5 255, RGB.mk (-100) 0 0 255]] = some bres ∧
        (entry bres 0 1).red < 0) := by
  refine ⟨_, vignette_spec_aux b h w hh hsize d, ?_, ?_, ?_⟩
  · exact dims_map_range fun i _ => by simp
  · intro r hr c hc
    rw [entry_map_range hr, getD_map_range _ _ _ _ hc]
    rfl
  · exact ⟨[[RGB.mk 0 0 0 255, RGB.mk (-100) 0 0 255]], by decide, by decide⟩

set_option maxRecDepth 1000000 in
unseal Rat.add Rat.mul Rat.inv Rat.sub in
/-- Witness for C9 amended on a concrete 1×2 buffer: the pixel at the
center column keeps its channels (factor 1), the other is zeroed
(factor 0). -/
theorem vignette_amended_c9_witness :
    vignette [[RGB.mk 5 5 5 255, RGB.mk 10 20 30 255]] =
      some [[RGB.mk 0 0 0 255, RGB.mk 10 20 30 255]] := by
  obtain ⟨b2, heq, hdims, hentry, -⟩ :=
    vignette_amended_c9 [[RGB.mk 5 5 5 255, RGB.mk 10 20 30 255]] 1 2
      (by decide) (by decide) (Or.inr (by decide)) (by decide)
  rw [heq]
  congr 1
  apply buffer_ext hdims
    (show Dims [[RGB.mk 0 0 0 255, RGB.mk 10 20 30 255]] 1 2 by decide)
  intro r hr c hc
  have hr0 : r = 0 := by omega
  subst hr0
  have hc01 : c = 0 ∨ c = 1 := by omega
  rcases hc01 with rfl | rfl
  · rw [hentry 0 (by decide) 0 (by decide)]
    decide
  · rw [hentry 0 (by decide) 1 (by decide)]
    decide

theorem verify_of_dims {b : Buffer} {h w : Nat} (hh : 0 < h) (hw : 0 < w)
    (d : Dims b h w) : verify_image b = true := by
  unfold verify_image
  rw [if_neg (by rw [d.length]; omega),
      if_neg (by rw [headD_length d hh]; omega)]
  rw [List.all_eq_true]
  intro row hrow
  rw [beq_iff_eq, d.row_length hrow, headD_length d hh]

theorem foldl_dims {α : Type} {h w : Nat} (f : Buffer → α → Buffer)
    (l : List α) (b : Buffer) (hb : Dims b h w)
    (hf : ∀ acc a, Dims acc h w → a ∈ l → Dims (f acc a) h w) :
    Dims (l.foldl f b) h w := by
  induction l generalizing b with
  | nil => exact hb
  | cons x xs ih =>
    exact ih (f b x) (hf b x hb (List.mem_cons_self x xs))
      fun acc a ha hmem => hf acc a ha (List.mem_cons_of_mem x hmem)

theorem setPix_dims {b : Buffer} {h w r c : Nat} {p : RGB} (d : Dims b h w)
    (hr : r < h) : Dims (setPix b r c p) h w := by
  unfold setPix
  constructor
  · rw [List.length_set, d.length]
  · intro row hrow
    rcases List.mem_or_eq_of_mem_set hrow with hmem | rfl
    · exact d.row_length hmem
    · rw [List.length_set]
      have h1 : r < b.length := by rw [d.length]; exact hr
      rw [List.getD_eq_getElem _ _ h1]
      exact d.row_length (List.getElem_mem h1)

theorem fillBlock_dims {b : Buffer} {h w row rowMax col colMax : Nat} {p : RGB}
    (d : Dims b h w) (hrm : rowMax ≤ h) :
    Dims (fillBlock b row rowMax col colMax p) h w := by
  unfold fillBlock
  apply foldl_dims _ _ _ d
  intro acc i hacc hi
  apply foldl_dims _ _ _ hacc
  intro acc2 j hacc2 _
  apply setPix_dims hacc2
  simp only [List.mem_range] at hi
  omega

theorem pixellate_dims {b : Buffer} {h w step : Nat} (hh : 0 < h)
    (d : Dims b h w) : Dims (pixellate b step) h w := by
  unfold pixellate
  rw [d.length, headD_length d hh]
  apply foldl_dims _ _ _ d
  intro acc row hacc _
  apply foldl_dims _ _ _ hacc
  intro acc2 col hacc2 _
  exact fillBlock_dims hacc2 (min_le_right _ _)

theorem scramble_dims {b : Buffer} {h w amount : Nat} {oracle : Nat → Nat}
    (hh : 0 < h) (d : Dims b h w) : Dims (scramble b amount oracle) h w := by
  simp only [scramble]
  rw [d.length, headD_length d hh]
  apply foldl_dims _ _ _ d
  intro acc k hacc _
  apply setPix_dims hacc
  unfold randint
  have := Nat.mod_lt (oracle (5 * k)) (show 0 < h - 1 - 0 + 1 by omega)
  omega

theorem map_map_dims {b : Buffer} {h w : Nat} {f : RGB → RGB} (d : Dims b h w) :
    Dims (b.map fun row => row.map f) h w := by
  constructor
  · rw [List.length_map, d.length]
  · intro row hrow
    simp only [List.mem_map] at hrow
    obtain ⟨orig, hmem, rfl⟩ := hrow
    rw [List.length_map, d.row_length hmem]

set_option maxRecDepth 100000 in
unseal Rat.add Rat.mul Rat.inv Rat.sub in
/-- C10 counterexample: the 1×1 buffer `[[RGB(7, 8, 9, 255)]]` is valid
(`verify_image` holds) and `vignette` has no parameters, so its
preconditions are met — yet `vignette` raises `ZeroDivisionError` on it
and leaves no transformed buffer, contradicting the claim that EVERY
transform applied to a valid buffer leaves a valid buffer. -/
theorem transforms_c10_counterexample :
    verify_image [[RGB.mk 7 8 9 255]] = true ∧
    vignette [[RGB.mk 7 8 9 255]] = none := by
  constructor
  · decide
  · decide

/-- C10 amended: every transform of the library, applied to a non-empty
rectangular buffer of pixels with parameters meeting its preconditions,
leaves the buffer non-empty and rectangular (`verify_image` stays true);
all transforms except `transpose` and `rotate` preserve height and width,
while `transpose` and `rotate` swap them — with the one exception that
`vignette` also requires the buffer to have more than one pixel: on a 1×1
buffer it raises `ZeroDivisionError` and produces no buffer, and whenever
it does produce a buffer that buffer is valid. -/
theorem transforms_valid_amended_c10 (b : Buffer) (h w : Nat)
    (hh : 0 < h) (hw : 0 < w) (d : Dims b h w)
    (sepia vert rotr : Bool) (radius : Int) (hrad : 0 < radius)
    (step : Nat) (hstep : 0 < step) (amount : Nat) (oracle : Nat → Nat)
    (factor : ℚ) :
    (Dims (dered b) h w ∧ verify_image (dered b) = true) ∧
    (Dims (mono b sepia) h w ∧ verify_image (mono b sepia) = true) ∧
    (Dims (flip b vert) h w ∧ verify_image (flip b vert) = true) ∧
    (Dims (transpose b) w h ∧ verify_image (transpose b) = true) ∧
    (Dims (rotate b rotr) w h ∧ verify_image (rotate b rotr) = true) ∧
    (∀ b2, vignette b = some b2 → Dims b2 h w ∧ verify_image b2 = true) ∧
    (Dims (blur b radius) h w ∧ verify_image (blur b radius) = true) ∧
    (Dims (pixellate b step) h w ∧ verify_image (pixellate b step) = true) ∧
    (Dims (scramble b amount oracle) h w ∧
      verify_image (scramble b amount oracle) = true) ∧
    (Dims (brighten b factor) h w ∧ verify_image (brighten b factor) = true) := by
  have hvd : ∀ (b2 : Buffer), Dims b2 h w → verify_image b2 = true :=
    fun b2 d2 => verify_of_dims hh hw d2
  have hvd' : ∀ (b2 : Buffer), Dims b2 w h → verify_image b2 = true :=
    fun b2 d2 => verify_of_dims hw hh d2
  refine ⟨⟨map_map_dims d, hvd _ (map_map_dims d)⟩, ?_, ?_, ?_, ?_, ?_, ?_, ?_, ?_, ?_⟩
  · have hm : Dims (mono b sepia) h w := map_map_dims d
    exact ⟨hm, hvd _ hm⟩
  · have hf : Dims (flip b vert) h w := by
      cases vert
      · exact flipH_dims d
      · exact flipV_dims d
    exact ⟨hf, hvd _ hf⟩
  · exact ⟨transpose_dims d hh hw, hvd' _ (transpose_dims d hh hw)⟩
  · have hr : Dims (rotate b rotr) w h := by
      cases rotr
      · exact rotate_left_dims d hh hw
      · exact rotate_right_dims d hh hw
    exact ⟨hr, hvd' _ hr⟩
  · intro b2 heq
    by_cases hsize : 1 < h ∨ 1 < w
    · rw [vignette_spec_aux b h w hh hsize d] at heq
      have hb2 := Option.some_inj.mp heq
      have hd2 : Dims ((List.range h).map fun r => (List.range w).map fun c =>
          vignettePixel (entry b r c) (vignetteFactor h w r c)) h w :=
        dims_map_range fun i _ => by simp
      rw [hb2] at hd2
      exact ⟨hd2, hvd _ hd2⟩
    · push_neg at hsize
      have h1 : h = 1 := by omega
      have w1 : w = 1 := by omega
      subst h1
      subst w1
      rw [vignette_none_aux b d] at heq
      exact Option.noConfusion heq
  · have hd2 : Dims (blur b radius) h w := by
      rw [blur_eq radius hh d]
      exact dims_map_range fun i _ => by simp
    exact ⟨hd2, hvd _ hd2⟩
  · exact ⟨pixellate_dims hh d, hvd _ (pixellate_dims hh d)⟩
  · exact ⟨scramble_dims hh d, hvd _ (scramble_dims hh d)⟩
  · exact ⟨map_map_dims d, hvd _ (map_map_dims d)⟩

/-- Witness for C10 amended on a concrete 2×2 buffer with concrete
parameters for every transform. -/
theorem transforms_valid_amended_c10_witness :
    verify_image (blur [[RGB.mk 1 2 3 4, RGB.mk 5 6 7 8],
      [RGB.mk 9 10 11 12, RGB.mk 13 14 15 16]] 1) = true ∧
    Dims (pixellate [[RGB.mk 1 2 3 4, RGB.mk 5 6 7 8],
      [RGB.mk 9 10 11 12, RGB.mk 13 14 15 16]] 1) 2 2 ∧
    verify_image (scramble [[RGB.mk 1 2 3 4, RGB.mk 5 6 7 8],
      [RGB.mk 9 10 11 12, RGB.mk 13 14 15 16]] 1 (fun _ => 0)) = true := by
  have hth := transforms_valid_amended_c10
    [[RGB.mk 1 2 3 4, RGB.mk 5 6 7 8], [RGB.mk 9 10 11 12, RGB.mk 13 14 15 16]]
    2 2 (by decide) (by decide) (by decide)
    false false false 1 (by decide) 1 (by decide) 1 (fun _ => 0) (1/2)
  exact ⟨hth.2.2.2.2.2.2.1.2, hth.2.2.2.2.2.2.2.1.1, hth.2.2.2.2.2.2.2.2.1.2⟩

theorem digit_beq_false {ch c0 : Char} (h : ch.isDigit = true)
    (h0 : c0.isDigit = false) : (ch == c0) = false := by
  by_cases he : ch = c0
  · subst he
    rw [h] at h0
    exact absurd h0 (by simp)
  · exact beq_eq_false_iff_ne.mpr he

theorem splitFirst_none {p : Char → Bool} {l : List Char}
    (h : ∀ ch ∈ l, p ch = false) : splitFirst p l = (l, none) := by
  induction l with
  | nil => rfl
  | cons ch rest ih =>
    unfold splitFirst
    rw [h ch (List.mem_cons_self ch rest)]
    simp only [Bool.false_eq_true, if_false]
    rw [ih fun c hm => h c (List.mem_cons_of_mem ch hm)]

theorem splitFirst_append {p : Char → Bool} {k v : List Char} {sep : Char}
    (hk : ∀ ch ∈ k, p ch = false) (hsep : p sep = true) :
    splitFirst p (k ++ sep :: v) = (k, some v) := by
  induction k with
  | nil =>
    rw [List.nil_append]
    show (if p sep = true then (([] : List Char), some v)
      else (sep :: (splitFirst p v).1, (splitFirst p v).2)) = ([], some v)
    rw [hsep]
    simp
  | cons ch rest ih =>
    rw [List.cons_append]
    show (if p ch = true then (([] : List Char), some (rest ++ sep :: v))
      else (ch :: (splitFirst p (rest ++ sep :: v)).1,
        (splitFirst p (rest ++ sep :: v)).2)) = (ch :: rest, some v)
    rw [hk ch (List.mem_cons_self ch rest)]
    simp only [Bool.false_eq_true, if_false]
    rw [ih fun c hm => hk c (List.mem_cons_of_mem ch hm)]

theorem data_dash_append (t : String) : ("-" ++ t).data = '-' :: t.data := rfl

/-- Parsing via `pyFloat` accepts a negative whole-number token and returns the
(rounded) negated value. -/
theorem pyFloat_neg_digits (t : String) (hne : t.data ≠ [])
    (hdig : t.data.all Char.isDigit = true) :
    pyFloat ("-" ++ t) = some (fl (-1 * ((digitsToNat t.data : ℚ) +
      (digitsToNat ([] : List Char) : ℚ) / (10 : ℚ) ^ (0 : Nat)) *
      (10 : ℚ) ^ (0 : Int))) := by
  have hall : ∀ ch ∈ t.data, ch.isDigit = true := List.all_eq_true.mp hdig
  have hsplitE : splitFirst (fun ch => ch == 'e' || ch == 'E') t.data = (t.data, none) :=
    splitFirst_none fun ch hm => by
      rw [digit_beq_false (hall ch hm) (by decide),
          digit_beq_false (hall ch hm) (by decide)]
      rfl
  have hsplitDot : splitFirst (fun ch => ch == '.') t.data = (t.data, none) :=
    splitFirst_none fun ch hm => digit_beq_false (hall ch hm) (by decide)
  unfold pyFloat
  rw [data_dash_append]
  simp only [hsplitE, hsplitDot]
  rw [if_pos ⟨hdig, by simp, Or.inl hne⟩]
  rfl

set_option maxRecDepth 100000 in
unseal Rat.add Rat.mul Rat.inv Rat.sub in
/-- C1: the option value coercion follows the exact order: the literal
strings True/False (exact match) become booleans; otherwise an all-digits
value becomes an integer; otherwise a successful float parse gives a
float; otherwise the value stays a string — and the coercion is applied
once per raw `--key=value` token.  Consequently a negative whole-number
token such as `-3` fails the all-digits check and coerces to float, never
to integer. -/
theorem coercion_order_c1 :
    (coerce_value "True" = .bool true ∧ coerce_value "False" = .bool false) ∧
    (∀ v : String, v ≠ "True" → v ≠ "False" → pyIsDigit v = true →
      coerce_value v = .int (pyIntOfDigits v)) ∧
    (∀ v : String, v ≠ "True" → v ≠ "False" → pyIsDigit v = false →
      coerce_value v = (match pyFloat v with
        | some q => OptValue.float q
        | none => OptValue.str v)) ∧
    (∀ t : String, t.data ≠ [] → t.data.all Char.isDigit = true →
      (∃ q : ℚ, coerce_value ("-" ++ t) = .float q) ∧
      ∀ n : Int, coerce_value ("-" ++ t) ≠ .int n) ∧
    (∀ k v : String, (k.data.all fun ch => !(ch == '=')) = true →
      parseOptToken ("--" ++ k ++ "=" ++ v) = some (k, coerce_value v)) := by
  refine ⟨⟨rfl, rfl⟩, ?_, ?_, ?_, ?_⟩
  · intro v hT hF hd
    unfold coerce_value
    rw [if_neg hT, if_neg hF, if_pos hd]
  · intro v hT hF hd
    unfold coerce_value
    rw [if_neg hT, if_neg hF, if_neg (by rw [hd]; simp)]
  · intro t hne hdig
    have hdata := data_dash_append t
    have hT : ("-" ++ t) ≠ "True" := by
      intro h
      have hh := congrArg (fun s : String => s.data.head?) h
      simp only [hdata, List.head?_cons] at hh
      exact absurd hh (by decide)
    have hF : ("-" ++ t) ≠ "False" := by
      intro h
      have hh := congrArg (fun s : String => s.data.head?) h
      simp only [hdata, List.head?_cons] at hh
      exact absurd hh (by decide)
    have hd : pyIsDigit ("-" ++ t) = false := by
      unfold pyIsDigit
      rw [hdata]
      simp
    have hcoe : coerce_value ("-" ++ t) =
        .float (fl (-1 * ((digitsToNat t.data : ℚ) +
          (digitsToNat ([] : List Char) : ℚ) / (10 : ℚ) ^ (0 : Nat)) *
          (10 : ℚ) ^ (0 : Int))) := by
      unfold coerce_value
      rw [if_neg hT, if_neg hF, if_neg (by rw [hd]; simp),
          pyFloat_neg_digits t hne hdig]
    refine ⟨⟨_, hcoe⟩, ?_⟩
    intro n h
    rw [hcoe] at h
    exact OptValue.noConfusion h
  · intro k v hk
    have hdata : ("--" ++ k ++ "=" ++ v).data = '-' :: '-' :: (k.data ++ '=' :: v.data) := by
      show ("--".data ++ k.data ++ "=".data ++ v.data) = _
      simp
    have hsplit : splitFirst (fun ch => ch == '=') (k.data ++ '=' :: v.data) =
        (k.data, some v.data) := by
      apply splitFirst_append
      · intro ch hm
        have := List.all_eq_true.mp hk ch hm
        simpa using this
      · simp
    unfold parseOptToken
    rw [hdata]
    show (match splitFirst (fun ch => ch == '=') (k.data ++ '=' :: v.data) with
      | (key, some value) => some (String.mk key, coerce_value (String.mk value))
      | (_, none) => none) = some (k, coerce_value v)
    rw [hsplit]

set_option maxRecDepth 100000 in
unseal Rat.add Rat.mul Rat.inv Rat.sub in
/-- Witness for C1 at concrete tokens: `12` coerces to the integer 12,
`-3` coerces to a float and not to an integer, and the token
`--radius=-3` is split into key `radius` and the coerced value. -/
theorem coercion_order_c1_witness :
    coerce_value "12" = OptValue.int 12 ∧
    (∃ q : ℚ, coerce_value "-3" = OptValue.float q) ∧
    coerce_value "-3" ≠ OptValue.int (-3) ∧
    parseOptToken "--radius=-3" = some ("radius", coerce_value "-3") := by
  have h12 := coercion_order_c1.2.1 "12" (by decide) (by decide) (by decide)
  have hneg := coercion_order_c1.2.2.2.1 "3" (by decide) (by decide)
  have htok := coercion_order_c1.2.2.2.2 "radius" "-3" (by decide)
  have heq : ("-" ++ "3" : String) = "-3" := rfl
  have heq2 : ("--" ++ "radius" ++ "=" ++ "-3" : String) = "--radius=-3" := rfl
  rw [heq] at hneg
  rw [heq2] at htok
  exact ⟨by rw [h12]; decide, hneg.1, hneg.2 (-3), htok⟩

/-- A successful attribute lookup comes from an entry of the table. -/
theorem lookupAttr_func_mem : ∀ (m : Module) (name : String) (p : List String)
    (dz : Nat), lookupAttr m name = some (.func p dz) →
    ∃ kv ∈ m, kv.1 = name ∧ kv.2 = PyAttr.func p dz := by
  intro m
  induction m with
  | nil => intro name p dz h; exact Option.noConfusion h
  | cons kv rest ih =>
    intro name p dz h
    obtain ⟨k, a⟩ := kv
    simp only [lookupAttr] at h
    by_cases hk : k = name
    · rw [if_pos hk] at h
      exact ⟨(k, a), List.mem_cons_self _ _, hk, Option.some_inj.mp h⟩
    · rw [if_neg hk] at h
      obtain ⟨kv2, hm, h1, h2⟩ := ih name p dz h
      exact ⟨kv2, List.mem_cons_of_mem _ hm, h1, h2⟩

/-- Every function attribute of the `plugins2` module is one of the eleven
registered transforms. -/
theorem func_attr_is_transform {name : String} {p : List String} {dz : Nat}
    (h : lookupAttr plugins2Module name = some (.func p dz)) :
    transformNames.contains name = true := by
  obtain ⟨kv, hmem, hfst, hsnd⟩ := lookupAttr_func_mem plugins2Module name p dz h
  simp only [plugins2Module, List.mem_cons, List.not_mem_nil, or_false] at hmem
  rcases hmem with rfl|rfl|rfl|rfl|rfl|rfl|rfl|rfl|rfl|rfl|rfl|rfl|rfl|rfl|rfl|rfl|rfl|rfl|rfl|rfl|rfl|rfl
  all_goals
    first
      | exact PyAttr.noConfusion hsnd
      | (rw [← hfst]; decide)

/-- C2 counterexample: `math` is not a registered transform, yet requesting
it does not abort with the unrecognized-command message: `hasattr` finds
the imported module, and `function.__code__` raises `AttributeError`. -/
theorem lookup_attr_crash_c2_counterexample :
    transformNames.contains "math" = false ∧
    lookup_command plugins2Module "math" [] = .attributeError "math" := by
  constructor
  · decide
  · decide

/-- C2 amended: lookup is by exact attribute name without normalization: a
requested name matching no attribute of the plugin module aborts with the
unrecognized-command message; `RGB`, `math` and `random` (the module's
imports) are attributes but not functions, so requesting them aborts with
an uncaught `AttributeError` instead of that message; and no name outside
the fixed transform registry ever resolves to an invokable command. -/
theorem lookup_exact_amended_c2 (name : String) (options : List String) :
    (∀ c, lookup_command plugins2Module name options = .ok c →
      c = name ∧ transformNames.contains name = true) ∧
    (lookupAttr plugins2Module name = none →
      lookup_command plugins2Module name options = .unrecognizedCommand name) ∧
    (lookupAttr plugins2Module name = some .other →
      lookup_command plugins2Module name options = .attributeError name) := by
  refine ⟨?_, ?_, ?_⟩
  · intro c hc
    cases hattr : lookupAttr plugins2Module name with
    | none =>
      simp only [lookup_command, hattr] at hc
      exact LookupResult.noConfusion hc
    | some a =>
      cases a with
      | other =>
        simp only [lookup_command, hattr] at hc
        exact LookupResult.noConfusion hc
      | func p dz =>
        simp only [lookup_command, hattr] at hc
        by_cases hwf : p.length ≠ dz + 1
        · rw [if_pos hwf] at hc
          exact LookupResult.noConfusion hc
        · rw [if_neg hwf] at hc
          by_cases hbad : options.filter (fun key => !(p.contains key)) ≠ []
          · rw [if_pos hbad] at hc
            exact LookupResult.noConfusion hc
          · rw [if_neg hbad] at hc
            have hcn : name = c := by injection hc
            exact ⟨hcn.symm, func_attr_is_transform hattr⟩
  · intro hattr
    simp only [lookup_command, hattr]
  · intro hattr
    simp only [lookup_command, hattr]

/-- Witness for C2 amended at concrete names. -/
theorem lookup_exact_amended_c2_witness :
    lookup_command plugins2Module "zzz" [] = .unrecognizedCommand "zzz" ∧
    lookup_command plugins2Module "random" [] = .attributeError "random" ∧
    transformNames.contains "mono" = true := by
  refine ⟨(lookup_exact_amended_c2 "zzz" []).2.1 (by decide),
          (lookup_exact_amended_c2 "random" []).2.2 (by decide),
          ((lookup_exact_amended_c2 "mono" ["sepia"]).1 "mono" (by decide)).2⟩

/-- C3 counterexample: `image` is `dered`'s buffer parameter and not one
of its non-buffer parameter names (it has none), so per the claim
`--image=...` should fail with UnrecognizedOptions — but resolution
succeeds, because the source checks each key against ALL parameter names
including the buffer parameter. -/
theorem options_buffer_c3_counterexample :
    lookup_command plugins2Module "dered" ["image"] = .ok "dered" ∧
    lookupAttr plugins2Module "dered" = some (.func ["image"] 0) := by
  constructor
  · decide
  · decide

/-- C3 amended: for every module and registered command with a well-formed
descriptor, if any option key matches none of the command's parameter
names (the buffer parameter included), resolution fails with an
UnrecognizedOptions error listing ALL the offending keys in order
(collected, not only the first); in particular `--radius=5` against
`mono`, which lacks a `radius` parameter, fails naming `radius`. -/
theorem options_collected_amended_c3 (m : Module) (name : String)
    (param : List String) (dsize : Nat) (options : List String)
    (hattr : lookupAttr m name = some (.func param dsize))
    (hwf : param.length = dsize + 1)
    (hbad : options.filter (fun key => !(param.contains key)) ≠ []) :
    lookup_command m name options =
      .unrecognizedOptions name (options.filter fun key => !(param.contains key)) ∧
    lookup_command plugins2Module "mono" ["radius"] =
      .unrecognizedOptions "mono" ["radius"] := by
  constructor
  · simp only [lookup_command, hattr]
    rw [if_neg (by omega), if_pos hbad]
  · decide

/-- Witness for C3 amended: two unknown keys against `blur` are both
collected and listed in order. -/
theorem options_collected_amended_c3_witness :
    lookup_command plugins2Module "blur" ["foo", "bar"] =
      .unrecognizedOptions "blur" ["foo", "bar"] :=
  (options_collected_amended_c3 plugins2Module "blur" ["image", "radius"] 1
    ["foo", "bar"] (by decide) (by decide) (by decide)).1

/-- C4: for every module and command whose descriptor violates the
one-buffer-parameter contract `len(params) = len(defaults) + 1`,
resolution fails with a MalformedPlugin error naming that command, and no
transform is invoked. -/
theorem malformed_plugin_c4 (m : Module) (name : String)
    (param : List String) (dsize : Nat) (options : List String)
    (hattr : lookupAttr m name = some (.func param dsize))
    (hbad : param.length ≠ dsize + 1) :
    lookup_command m name options = .malformedPlugin name ∧
    ∀ c, lookup_command m name options ≠ .ok c := by
  have hmain : lookup_command m name options = .malformedPlugin name := by
    simp only [lookup_command, hattr]
    rw [if_pos hbad]
  refine ⟨hmain, fun c h => ?_⟩
  rw [hmain] at h
  exact LookupResult.noConfusion h

/-- Witness for C4: a command registered with two parameters and no
defaults resolves to MalformedPlugin and never to an invokable command. -/
theorem malformed_plugin_c4_witness :
    lookup_command [("badcmd", PyAttr.func ["image", "other"] 0)] "badcmd" [] =
      .malformedPlugin "badcmd" ∧
    lookup_command [("badcmd", PyAttr.func ["image", "other"] 0)] "badcmd" [] ≠
      .ok "badcmd" :=
  ⟨(malformed_plugin_c4 _ "badcmd" ["image", "other"] 0 [] (by decide) (by decide)).1,
   (malformed_plugin_c4 _ "badcmd" ["image", "other"] 0 [] (by decide) (by decide)).2
     "badcmd"⟩

end PicTool

